import Mathlib

/-! Verification development for the repsim geodesic core
(`repsim/geometry/geodesic.py` and `repsim/geometry/trig.py`).

Points are modelled as real vectors `Fin n → ℝ`; torch tensor arithmetic
becomes pointwise real arithmetic.  The external collaborators (the manifold
and the numerical optimizer from `repsim/geometry/optimize.py` /
`repsim/geometry/manifold.py`, which are not part of the sources here) are
modelled abstractly: a `Manifold` is a pair of functions, and the optimizer
is an arbitrary function parameter of type `MinimizeFn`. -/

open scoped Classical

namespace RepSimGeo

/-- Points of the ambient space: dense real vectors of dimension `n`
(torch tensors in the source). -/
abbrev Pt (n : ℕ) := Fin n → ℝ

/-- `torch.sum(a * b)`: the Euclidean dot product of two vectors. -/
def dot {n : ℕ} (a b : Pt n) : ℝ := ∑ i, a i * b i

/-- Semantics of `torch.allclose(a, b, rtol, atol)`: elementwise
`|a i - b i| ≤ atol + rtol * |b i|`.  The torch defaults are
`rtol = 1e-5`, `atol = 1e-8`. -/
def allclose {n : ℕ} (a b : Pt n) (rtol atol : ℝ) : Prop :=
  ∀ i, |a i - b i| ≤ atol + rtol * |b i|

/-- `torch.clip(x, lo, hi)` with both bounds present. -/
noncomputable def clip (x lo hi : ℝ) : ℝ := min (max x lo) hi

/-- Modelled from the spec: the Manifold capability
(`repsim/geometry/manifold.py` is not under the given sources).  It exposes
`length : Point × Point → Scalar` and `project : ambient vector → Point`. -/
structure Manifold (n : ℕ) where
  length : Pt n → Pt n → ℝ
  project : Pt n → Pt n

/-- Modelled from the spec: `OptimResult` from `repsim/geometry/optimize.py`
(not under the given sources).  The spec requires a status enumeration with at
least `Converged` plus other values, collapsing to a boolean usable / not
usable semantic for downstream logic (`if not converged:` in the source is
read as `status ≠ CONVERGED`). -/
inductive OptimResult where
  | CONVERGED
  | MAX_STEPS_REACHED
deriving DecidableEq

/-- The keyword options the core forwards: `pt_tol` is the coincidence
tolerance read by `point_along` via `kwargs.get('pt_tol', 1e-6)`; fresh empty
kwargs correspond to the default record `{}`. -/
structure Opts where
  pt_tol : ℝ := 1e-6

/-- Fatal errors of the core: `point_along` raises `ValueError` for a
fraction outside `[0, 1]`, and `slerp` fails its `assert` on the same
condition. -/
inductive GErr where
  | invalidFrac (frac : ℝ)
  | slerpFracAssert (frac : ℝ)

/-- Non-fatal diagnostic warnings (`warnings.warn` in the source). -/
inductive GWarning where
  | midpointNotConverged (octaves : ℤ)
  | angleNotConverged

/-- Modelled from the spec: the optimizer capability `minimize` from
`repsim/geometry/optimize.py` (not under the given sources):
`minimize(objective, initialGuess, manifold, options) -> (point, status)`.
The core only forwards to it, so it is an arbitrary function parameter. -/
abbrev MinimizeFn (n : ℕ) :=
  (Pt n → ℝ) → Pt n → Manifold n → Opts → Pt n × OptimResult

/-- `path_length` from `repsim/geometry/geodesic.py`: iterate over the
points, adding `space.length(pt_a, pt_b)` for each consecutive pair, with the
accumulator starting at `0` and the previous point starting at `None`. -/
def path_length {n : ℕ} (pts : List (Pt n)) (space : Manifold n) : ℝ :=
  (pts.foldl
    (fun (acc : ℝ × Option (Pt n)) pt_b =>
      match acc.2 with
      | none => (acc.1, some pt_b)
      | some pt_a => (acc.1 + space.length pt_a pt_b, some pt_b))
    ((0 : ℝ), (none : Option (Pt n)))).1

/-- Claim-side companion of `path_length`: the sum of `space.length` over the
consecutive pairs of the sequence (zero on sequences of length below two). -/
def consecSum {n : ℕ} (space : Manifold n) : List (Pt n) → ℝ
  | a :: b :: rest => space.length a b + consecSum space (b :: rest)
  | _ => 0

/-- The inner objective `calc_error` of `point_along`:
`length_error = torch.clip(dist_a + dist_b - dist_ab, 0., None)` and
`frac_error = torch.abs(dist_a - frac * dist_ab)`; it returns their sum. -/
noncomputable def calc_error {n : ℕ} (space : Manifold n) (pt_a pt_b : Pt n)
    (frac dist_ab : ℝ) (pt_c : Pt n) : ℝ :=
  let dist_a := space.length pt_a pt_c
  let dist_b := space.length pt_c pt_b
  let total_length := dist_a + dist_b
  let length_error := max (total_length - dist_ab) 0
  let frac_error := |dist_a - frac * dist_ab|
  length_error + frac_error

/-- `point_along` from `repsim/geometry/geodesic.py`.  Raises (models as
`Except.error`) when `frac < 0 or frac > 1`; then three early-return fast
paths (`frac == 0`, `frac == 1`, `torch.allclose(pt_a, pt_b, atol=pt_tol)`);
otherwise hands `calc_error` and the projected initial guess to the
externally supplied optimizer. -/
noncomputable def point_along {n : ℕ} (minimizeF : MinimizeFn n)
    (pt_a pt_b : Pt n) (space : Manifold n) (frac : ℝ)
    (guess : Option (Pt n)) (opts : Opts) :
    Except GErr (Pt n × OptimResult) :=
  if frac < 0 ∨ frac > 1 then
    .error (GErr.invalidFrac frac)
  else if frac = 0 then
    .ok (pt_a, OptimResult.CONVERGED)
  else if frac = 1 then
    .ok (pt_b, OptimResult.CONVERGED)
  else if allclose pt_a pt_b 1e-5 opts.pt_tol then
    .ok (space.project ((pt_a + pt_b) / 2), OptimResult.CONVERGED)
  else
    let dist_ab := space.length pt_a pt_b
    let pt := match guess with
      | some g => space.project g
      | none => space.project ((1 - frac) • pt_a + frac • pt_b)
    .ok (minimizeF (calc_error space pt_a pt_b frac dist_ab) pt space opts)

/-- `midpoint` from `repsim/geometry/geodesic.py`: pure delegation to
`point_along` with `frac = 0.5` (and no initial guess). -/
noncomputable def midpoint {n : ℕ} (minimizeF : MinimizeFn n)
    (pt_a pt_b : Pt n) (space : Manifold n) (opts : Opts) :
    Except GErr (Pt n × OptimResult) :=
  point_along minimizeF pt_a pt_b space 0.5 none opts

/-- `subdivide_geodesic` from `repsim/geometry/geodesic.py`.  Computes the
midpoint with the caller's kwargs; warns when it did not converge; when
`octaves > 1 and converged` recursively subdivides both halves with
`octaves - 1` and fresh default kwargs (`{}` — the source passes no kwargs to
the recursive calls) and concatenates, dropping the duplicated midpoint;
otherwise returns the base case `[pt_a, midpt, pt_b]`. -/
noncomputable def subdivide_geodesic {n : ℕ} (minimizeF : MinimizeFn n)
    (pt_a pt_b : Pt n) (space : Manifold n) (octaves : ℤ) (opts : Opts) :
    Except GErr (List (Pt n) × List GWarning) :=
  match midpoint minimizeF pt_a pt_b space opts with
  | .error e => .error e
  | .ok (midpt, converged) =>
    let warn : List GWarning :=
      if converged ≠ OptimResult.CONVERGED then
        [GWarning.midpointNotConverged octaves]
      else []
    if _h : octaves > 1 ∧ converged = OptimResult.CONVERGED then
      match subdivide_geodesic minimizeF pt_a midpt space (octaves - 1) {},
            subdivide_geodesic minimizeF midpt pt_b space (octaves - 1) {} with
      | .error e, _ => .error e
      | .ok _, .error e => .error e
      | .ok left_half, .ok right_half =>
        .ok (left_half.1 ++ right_half.1.tail,
             warn ++ left_half.2 ++ right_half.2)
    else
      .ok ([pt_a, midpt, pt_b], warn)
termination_by octaves.toNat
decreasing_by
  all_goals (simp_wf; omega)

/-- Normalization to a unit vector, `pt / torch.sqrt(torch.sum(pt * pt))`
from `slerp` in `repsim/geometry/trig.py`. -/
noncomputable def normalize {n : ℕ} (a : Pt n) : Pt n :=
  fun i => a i / Real.sqrt (dot a a)

/-- `slerp` from `repsim/geometry/trig.py`.  The `assert 0.0 <= frac <= 1.0`
is modelled as an immediate error; then the source normalizes both inputs,
takes the three early-return branches (`frac == 0`, `frac == 1`,
`torch.allclose(a, b)` with the torch defaults `rtol=1e-5, atol=1e-8`), and
otherwise applies the SLERP formula with
`omega = arccos(clip(dot(a, b), -1, 1))`. -/
noncomputable def slerp {n : ℕ} (pt_a pt_b : Pt n) (frac : ℝ) :
    Except GErr (Pt n) :=
  if ¬ (0 ≤ frac ∧ frac ≤ 1) then .error (GErr.slerpFracAssert frac)
  else
    let a := normalize pt_a
    let b := normalize pt_b
    if frac = 0 then .ok a
    else if frac = 1 then .ok b
    else if allclose a b 1e-5 1e-8 then .ok ((a + b) / 2)
    else
      let ab := dot a b
      let omega := Real.arccos (clip ab (-1) 1)
      let a_frac := fun i => a i * Real.sin ((1 - frac) * omega) / Real.sin omega
      let b_frac := fun i => b i * Real.sin (frac * omega) / Real.sin omega
      .ok (fun i => a_frac i + b_frac i)

/-- Claim-side companion for C6: the closed-form SLERP expression exactly as
the specification states it,
`A*sin((1-f)*omega)/sin(omega) + B*sin(f*omega)/sin(omega)` with
`omega = arccos(clip(dot(A, B), -1, 1))`. -/
noncomputable def slerp_formula {n : ℕ} (pt_a pt_b : Pt n) (frac : ℝ) :
    Pt n :=
  let omega := Real.arccos (clip (dot pt_a pt_b) (-1) 1)
  fun i => pt_a i * Real.sin ((1 - frac) * omega) / Real.sin omega
    + pt_b i * Real.sin (frac * omega) / Real.sin omega

/-- `angle` from `repsim/geometry/trig.py`: displace slightly from `pt_b`
toward `pt_a` and toward `pt_c` with `point_along` at `frac = 0.01`, warn if
either call did not converge, then apply the law of cosines
`cos_b = 0.5 * (d_a*d_a + d_c*d_c - d_b*d_b) / (d_a*d_c)` and return
`arccos(clip(cos_b, -1, 1))`. -/
noncomputable def angle {n : ℕ} (minimizeF : MinimizeFn n)
    (pt_a pt_b pt_c : Pt n) (space : Manifold n) (opts : Opts) :
    Except GErr (ℝ × List GWarning) :=
  match point_along minimizeF pt_b pt_a space 0.01 none opts with
  | .error e => .error e
  | .ok (pt_ba, converged_ba) =>
    match point_along minimizeF pt_b pt_c space 0.01 none opts with
    | .error e => .error e
    | .ok (pt_bc, converged_bc) =>
      let warns : List GWarning :=
        if converged_ba ≠ OptimResult.CONVERGED
            ∨ converged_bc ≠ OptimResult.CONVERGED then
          [GWarning.angleNotConverged]
        else []
      let d_c := space.length pt_b pt_ba
      let d_a := space.length pt_b pt_bc
      let d_b := space.length pt_ba pt_bc
      let cos_b := 0.5 * (d_a * d_a + d_c * d_c - d_b * d_b) / (d_a * d_c)
      .ok (Real.arccos (clip cos_b (-1) 1), warns)

/-! ### Concrete instances used by witnesses and counterexamples -/

/-- The concrete test manifold of the spec: `length` is the Euclidean
distance on one-dimensional points, `project` is the identity. -/
noncomputable def euclid1 : Manifold 1 := ⟨fun a b => |a 0 - b 0|, fun p => p⟩

/-- A concrete optimizer that returns the initial guess and always reports
convergence. -/
def minConv {n : ℕ} : MinimizeFn n :=
  fun _obj g _space _opts => (g, OptimResult.CONVERGED)

/-- A concrete optimizer that returns the initial guess and never reports
convergence. -/
def minFail {n : ℕ} : MinimizeFn n :=
  fun _obj g _space _opts => (g, OptimResult.MAX_STEPS_REACHED)

/-- The concrete one-dimensional point `[0]`. -/
noncomputable def pt0 : Pt 1 := ![0]

/-- The concrete one-dimensional point `[1]`. -/
noncomputable def pt1 : Pt 1 := ![1]

/-- The concrete one-dimensional point `[2]`. -/
noncomputable def pt2 : Pt 1 := ![2]

/-- The concrete planar unit vector `[1, 0]`. -/
noncomputable def qA : Pt 2 := ![1, 0]

/-- The concrete planar unit vector `[0, 1]`. -/
noncomputable def qB : Pt 2 := ![0, 1]

/-- A concrete planar unit vector distinct from `qA` but within the
`torch.allclose` default tolerances of it: the rational point on the unit
circle with parameter `t = 1e-9`, namely
`[(1 - 1e-18)/(1 + 1e-18), 2e-9/(1 + 1e-18)]`. -/
noncomputable def qC : Pt 2 := ![(1 - 1e-18) / (1 + 1e-18), 2e-9 / (1 + 1e-18)]

/-! ### Helper lemmas -/

/-- The `path_length` fold, started after having seen a previous point `a`
with accumulator `acc`, adds exactly the consecutive-pair sum of `a :: l`. -/
theorem path_length_fold {n : ℕ} (space : Manifold n) (l : List (Pt n)) :
    ∀ (acc : ℝ) (a : Pt n),
      (l.foldl
        (fun (acc : ℝ × Option (Pt n)) pt_b =>
          match acc.2 with
          | none => (acc.1, some pt_b)
          | some pt_a => (acc.1 + space.length pt_a pt_b, some pt_b))
        (acc, some a)).1 = acc + consecSum space (a :: l) := by
  induction l with
  | nil => intro acc a; simp [consecSum]
  | cons b t ih =>
    intro acc a
    simp only [List.foldl, consecSum]
    rw [ih]
    ring

/-- `path_length` computes the consecutive-pair sum. -/
theorem path_length_eq_consecSum {n : ℕ} (space : Manifold n)
    (pts : List (Pt n)) : path_length pts space = consecSum space pts := by
  cases pts with
  | nil => simp [path_length, consecSum]
  | cons a t =>
    simp only [path_length, List.foldl]
    rw [path_length_fold]
    ring

/-- `point_along` with a fraction outside `[0, 1]` raises immediately. -/
theorem point_along_err {n : ℕ} (minimizeF : MinimizeFn n) (pt_a pt_b : Pt n)
    (space : Manifold n) (frac : ℝ) (guess : Option (Pt n)) (opts : Opts)
    (h : frac < 0 ∨ frac > 1) :
    point_along minimizeF pt_a pt_b space frac guess opts
      = .error (GErr.invalidFrac frac) := by
  unfold point_along
  rw [if_pos h]

/-- Fast path of `point_along` at `frac = 0`. -/
theorem point_along_zero {n : ℕ} (minimizeF : MinimizeFn n) (pt_a pt_b : Pt n)
    (space : Manifold n) (guess : Option (Pt n)) (opts : Opts) :
    point_along minimizeF pt_a pt_b space 0 guess opts
      = .ok (pt_a, OptimResult.CONVERGED) := by
  unfold point_along
  rw [if_neg (by norm_num), if_pos rfl]

/-- Fast path of `point_along` at `frac = 1`. -/
theorem point_along_one {n : ℕ} (minimizeF : MinimizeFn n) (pt_a pt_b : Pt n)
    (space : Manifold n) (guess : Option (Pt n)) (opts : Opts) :
    point_along minimizeF pt_a pt_b space 1 guess opts
      = .ok (pt_b, OptimResult.CONVERGED) := by
  unfold point_along
  rw [if_neg (by norm_num), if_neg (by norm_num), if_pos rfl]

/-- Coincidence fast path of `point_along`. -/
theorem point_along_coin {n : ℕ} (minimizeF : MinimizeFn n) (pt_a pt_b : Pt n)
    (space : Manifold n) (frac : ℝ) (guess : Option (Pt n)) (opts : Opts)
    (h0 : 0 ≤ frac) (h1 : frac ≤ 1) (hf0 : frac ≠ 0) (hf1 : frac ≠ 1)
    (hc : allclose pt_a pt_b 1e-5 opts.pt_tol) :
    point_along minimizeF pt_a pt_b space frac guess opts
      = .ok (space.project ((pt_a + pt_b) / 2), OptimResult.CONVERGED) := by
  unfold point_along
  rw [if_neg (by push_neg; exact ⟨h0, h1⟩), if_neg hf0, if_neg hf1, if_pos hc]

/-- General path of `point_along`: the optimizer is handed `calc_error` and
the projected initial guess. -/
theorem point_along_general {n : ℕ} (minimizeF : MinimizeFn n)
    (pt_a pt_b : Pt n) (space : Manifold n) (frac : ℝ)
    (guess : Option (Pt n)) (opts : Opts)
    (h0 : 0 ≤ frac) (h1 : frac ≤ 1) (hf0 : frac ≠ 0) (hf1 : frac ≠ 1)
    (hnc : ¬ allclose pt_a pt_b 1e-5 opts.pt_tol) :
    point_along minimizeF pt_a pt_b space frac guess opts
      = .ok (minimizeF
          (calc_error space pt_a pt_b frac (space.length pt_a pt_b))
          (match guess with
           | some g => space.project g
           | none => space.project ((1 - frac) • pt_a + frac • pt_b))
          space opts) := by
  unfold point_along
  rw [if_neg (by push_neg; exact ⟨h0, h1⟩), if_neg hf0, if_neg hf1, if_neg hnc]

/-- For a fraction in `[0, 1]`, `point_along` never raises. -/
theorem point_along_isOk {n : ℕ} (minimizeF : MinimizeFn n) (pt_a pt_b : Pt n)
    (space : Manifold n) (frac : ℝ) (guess : Option (Pt n)) (opts : Opts)
    (h0 : 0 ≤ frac) (h1 : frac ≤ 1) :
    ∃ p st, point_along minimizeF pt_a pt_b space frac guess opts
      = .ok (p, st) := by
  unfold point_along
  rw [if_neg (by push_neg; exact ⟨h0, h1⟩)]
  split_ifs
  · exact ⟨_, _, rfl⟩
  · exact ⟨_, _, rfl⟩
  · exact ⟨_, _, rfl⟩
  · exact ⟨_, _, congrArg Except.ok Prod.mk.eta.symm⟩

/-- One-step unfolding of `subdivide_geodesic`. -/
theorem subdivide_geodesic_unfold {n : ℕ} (minimizeF : MinimizeFn n)
    (pt_a pt_b : Pt n) (space : Manifold n) (octaves : ℤ) (opts : Opts) :
    subdivide_geodesic minimizeF pt_a pt_b space octaves opts =
      match midpoint minimizeF pt_a pt_b space opts with
      | .error e => .error e
      | .ok (midpt, converged) =>
        let warn : List GWarning :=
          if converged ≠ OptimResult.CONVERGED then
            [GWarning.midpointNotConverged octaves]
          else []
        if octaves > 1 ∧ converged = OptimResult.CONVERGED then
          match subdivide_geodesic minimizeF pt_a midpt space (octaves - 1) {},
                subdivide_geodesic minimizeF midpt pt_b space (octaves - 1) {} with
          | .error e, _ => .error e
          | .ok _, .error e => .error e
          | .ok left_half, .ok right_half =>
            .ok (left_half.1 ++ right_half.1.tail,
                 warn ++ left_half.2 ++ right_half.2)
        else
          .ok ([pt_a, midpt, pt_b], warn) := by
  rw [subdivide_geodesic]
  simp only [dite_eq_ite]

/-- Two one-dimensional points further apart than the tolerances never
satisfy `allclose`. -/
theorem not_allclose_1d (x y atol : ℝ)
    (h : atol + 1e-5 * |y| < |x - y|) :
    ¬ allclose ![x] ![y] 1e-5 atol := by
  intro hc
  have h0 := hc 0
  simp only [Matrix.cons_val_zero] at h0
  linarith

/-- Convenient form of `not_allclose_1d` for `0 ≤ x < y`. -/
theorem not_allclose_1d_of_lt (x y atol : ℝ) (hy : 0 ≤ y) (hxy : x < y)
    (h : atol + 1e-5 * y < y - x) :
    ¬ allclose ![x] ![y] 1e-5 atol := by
  apply not_allclose_1d
  rw [abs_of_nonneg hy, abs_of_neg (by linarith : x - y < 0)]
  linarith

/-- Evaluation of `midpoint` with the always-converging concrete optimizer
on arbitrary non-coinciding points of the Euclidean line: it yields the
projected linear interpolation `(1 - 0.5) * x + 0.5 * y`. -/
theorem midpoint_minConv_1d (x y m : ℝ) (o : Opts)
    (h : ¬ allclose ![x] ![y] 1e-5 o.pt_tol)
    (hm : (1 - (0.5 : ℝ)) * x + 0.5 * y = m) :
    midpoint minConv ![x] ![y] euclid1 o = .ok (![m], OptimResult.CONVERGED)
    := by
  have hmid : ((1 - (0.5 : ℝ)) • (![x] : Pt 1) + (0.5 : ℝ) • (![y] : Pt 1))
      = ![m] := by
    funext i
    have hi : i = 0 := Subsingleton.elim i 0
    subst hi
    simp only [Pi.add_apply, Pi.smul_apply, smul_eq_mul,
      Matrix.cons_val_zero]
    exact hm
  unfold midpoint
  rw [point_along_general minConv ![x] ![y] euclid1 0.5 none o
      (by norm_num) (by norm_num) (by norm_num) (by norm_num) h]
  dsimp only [minConv, euclid1]
  rw [hmid]

/-- Evaluation of `midpoint` with the never-converging concrete optimizer
on arbitrary non-coinciding points of the Euclidean line. -/
theorem midpoint_minFail_1d (x y m : ℝ) (o : Opts)
    (h : ¬ allclose ![x] ![y] 1e-5 o.pt_tol)
    (hm : (1 - (0.5 : ℝ)) * x + 0.5 * y = m) :
    midpoint minFail ![x] ![y] euclid1 o
      = .ok (![m], OptimResult.MAX_STEPS_REACHED) := by
  have hmid : ((1 - (0.5 : ℝ)) • (![x] : Pt 1) + (0.5 : ℝ) • (![y] : Pt 1))
      = ![m] := by
    funext i
    have hi : i = 0 := Subsingleton.elim i 0
    subst hi
    simp only [Pi.add_apply, Pi.smul_apply, smul_eq_mul,
      Matrix.cons_val_zero]
    exact hm
  unfold midpoint
  rw [point_along_general minFail ![x] ![y] euclid1 0.5 none o
      (by norm_num) (by norm_num) (by norm_num) (by norm_num) h]
  dsimp only [minFail, euclid1]
  rw [hmid]

/-- Evaluation of `midpoint` with the always-converging optimizer on `[0]`
and `[2]`: it yields `[1]`. -/
theorem midpoint_minConv_02 (o : Opts) (h : o.pt_tol ≤ 1) :
    midpoint minConv pt0 pt2 euclid1 o = .ok (pt1, OptimResult.CONVERGED)
    := by
  simp only [pt0, pt1, pt2]
  exact midpoint_minConv_1d 0 2 1 o
    (not_allclose_1d_of_lt 0 2 o.pt_tol (by norm_num) (by norm_num)
      (by linarith))
    (by norm_num)

/-- Evaluation of `subdivide_geodesic` at one octave with the
always-converging optimizer on the Euclidean line. -/
theorem subdivide1_minConv_1d (x y m : ℝ)
    (h : ¬ allclose ![x] ![y] 1e-5 (Opts.pt_tol {}))
    (hm : (1 - (0.5 : ℝ)) * x + 0.5 * y = m) :
    subdivide_geodesic minConv ![x] ![y] euclid1 1 {}
      = .ok ([![x], ![m], ![y]], []) := by
  rw [subdivide_geodesic_unfold, midpoint_minConv_1d x y m {} h hm]
  dsimp only
  rw [if_neg (fun hc => absurd hc.1 (lt_irrefl 1)),
      if_neg (not_not_intro rfl)]

/-- With an optimizer that always reports convergence on `space`, every
`midpoint` call returns `ok` with status `CONVERGED`. -/
theorem midpoint_conv {n : ℕ} (minimizeF : MinimizeFn n) (space : Manifold n)
    (hconv : ∀ obj g opts,
      (minimizeF obj g space opts).2 = OptimResult.CONVERGED)
    (pt_a pt_b : Pt n) (opts : Opts) :
    ∃ m, midpoint minimizeF pt_a pt_b space opts
      = .ok (m, OptimResult.CONVERGED) := by
  have hp : ∀ (e : Pt n → ℝ) (p : Pt n),
      Except.ok (ε := GErr) (minimizeF e p space opts)
        = .ok ((minimizeF e p space opts).1, OptimResult.CONVERGED) := by
    intro e p
    rw [← hconv e p opts]
  unfold midpoint point_along
  rw [if_neg (by norm_num)]
  split_ifs
  · exact ⟨_, rfl⟩
  · exact ⟨_, rfl⟩
  · exact ⟨_, rfl⟩
  · exact ⟨_, hp _ _⟩

/-- Structure of `subdivide_geodesic` under full convergence: for
`octaves = k ≥ 1` the result is `ok`, of the shape `A :: core ++ [B]` with
`core.length + 2 = 2 ^ k + 1`. -/
theorem subdivide_conv_struct {n : ℕ} (minimizeF : MinimizeFn n)
    (space : Manifold n)
    (hconv : ∀ obj g opts,
      (minimizeF obj g space opts).2 = OptimResult.CONVERGED) :
    ∀ (k : ℤ), 1 ≤ k → ∀ (pt_a pt_b : Pt n) (opts : Opts),
      ∃ core warns,
        subdivide_geodesic minimizeF pt_a pt_b space k opts
          = .ok (pt_a :: (core ++ [pt_b]), warns)
        ∧ core.length + 2 = 2 ^ k.toNat + 1 := by
  refine Int.le_induction ?_ ?_
  · intro pt_a pt_b opts
    obtain ⟨m, hm⟩ := midpoint_conv minimizeF space hconv pt_a pt_b opts
    refine ⟨[m], [], ?_, by norm_num⟩
    rw [subdivide_geodesic_unfold, hm]
    dsimp only
    rw [if_neg (fun hc => absurd hc.1 (lt_irrefl 1)),
        if_neg (not_not_intro rfl)]
    rfl
  · intro k hk ih
    intro pt_a pt_b opts
    obtain ⟨m, hm⟩ := midpoint_conv minimizeF space hconv pt_a pt_b opts
    obtain ⟨cl, wl, hl, hcl⟩ := ih pt_a m {}
    obtain ⟨cr, wr, hr, hcr⟩ := ih m pt_b {}
    have hk1 : k + 1 - 1 = k := by ring
    refine ⟨cl ++ [m] ++ cr, wl ++ wr, ?_, ?_⟩
    · rw [subdivide_geodesic_unfold, hm]
      dsimp only
      rw [if_pos ⟨by omega, rfl⟩, if_neg (not_not_intro rfl), hk1, hl, hr]
      dsimp only
      simp [List.append_assoc]
    · have h2 : (k + 1).toNat = k.toNat + 1 := by omega
      rw [h2, pow_succ]
      simp only [List.length_append, List.length_cons, List.length_nil]
      generalize (2 : ℕ) ^ k.toNat = P at hcl hcr ⊢
      omega

/-- Expansion of the dot square of a linear combination. -/
theorem dot_expand {n : ℕ} (A B : Pt n) (p q : ℝ) :
    dot (fun i => A i * p + B i * q) (fun i => A i * p + B i * q)
      = p ^ 2 * dot A A + 2 * p * q * dot A B + q ^ 2 * dot B B := by
  unfold dot
  rw [Finset.mul_sum, Finset.mul_sum, Finset.mul_sum,
    ← Finset.sum_add_distrib, ← Finset.sum_add_distrib]
  refine Finset.sum_congr rfl fun i _ => by ring

/-- Expansion of the dot square of a difference. -/
theorem dot_sub_expand {n : ℕ} (A B : Pt n) :
    dot (fun i => A i - B i) (fun i => A i - B i)
      = dot A A - 2 * dot A B + dot B B := by
  unfold dot
  rw [Finset.mul_sum, ← Finset.sum_sub_distrib, ← Finset.sum_add_distrib]
  refine Finset.sum_congr rfl fun i _ => by ring

/-- Expansion of the dot square of a sum. -/
theorem dot_add_expand {n : ℕ} (A B : Pt n) :
    dot (fun i => A i + B i) (fun i => A i + B i)
      = dot A A + 2 * dot A B + dot B B := by
  unfold dot
  rw [Finset.mul_sum, ← Finset.sum_add_distrib, ← Finset.sum_add_distrib]
  refine Finset.sum_congr rfl fun i _ => by ring

/-- The dot square is nonnegative. -/
theorem dot_self_nonneg {n : ℕ} (v : Pt n) : 0 ≤ dot v v :=
  Finset.sum_nonneg fun i _ => mul_self_nonneg (v i)

/-- A vector with vanishing dot square is the zero vector, pointwise. -/
theorem dot_self_eq_zero {n : ℕ} (v : Pt n) (h : dot v v = 0) :
    ∀ i, v i = 0 := by
  intro i
  have := (Finset.sum_eq_zero_iff_of_nonneg
    (fun j _ => mul_self_nonneg (v j))).mp h i (Finset.mem_univ i)
  exact mul_self_eq_zero.mp this

/-- Strict Cauchy–Schwarz-type bound for distinct unit vectors. -/
theorem dot_lt_one_of_ne {n : ℕ} (A B : Pt n) (hA : dot A A = 1)
    (hB : dot B B = 1) (hne : A ≠ B) : dot A B < 1 := by
  have hsub := dot_sub_expand A B
  have hnn := dot_self_nonneg (fun i => A i - B i)
  rw [hsub, hA, hB] at hnn
  rcases lt_or_eq_of_le (by linarith : dot A B ≤ 1) with h | h
  · exact h
  · exfalso
    apply hne
    have hz : dot (fun i => A i - B i) (fun i => A i - B i) = 0 := by
      rw [hsub, hA, hB, ← h]; ring
    funext i
    have := dot_self_eq_zero _ hz i
    linarith [this]

/-- Strict antipodal bound for unit vectors that are not exact opposites. -/
theorem neg_one_lt_dot_of_ne_neg {n : ℕ} (A B : Pt n) (hA : dot A A = 1)
    (hB : dot B B = 1) (hne : A ≠ -B) : -1 < dot A B := by
  have hadd := dot_add_expand A B
  have hnn := dot_self_nonneg (fun i => A i + B i)
  rw [hadd, hA, hB] at hnn
  rcases lt_or_eq_of_le (by linarith : -1 ≤ dot A B) with h | h
  · exact h
  · exfalso
    apply hne
    have hz : dot (fun i => A i + B i) (fun i => A i + B i) = 0 := by
      rw [hadd, hA, hB, ← h]; ring
    funext i
    have := dot_self_eq_zero _ hz i
    have : A i = -B i := by linarith [this]
    simpa using this

/-- Normalizing a unit vector is the identity. -/
theorem normalize_of_unit {n : ℕ} (A : Pt n) (hA : dot A A = 1) :
    normalize A = A := by
  funext i
  unfold normalize
  rw [hA, Real.sqrt_one, div_one]

/-- `allclose` is reflexive for nonnegative tolerances. -/
theorem allclose_self {n : ℕ} (v : Pt n) (rtol atol : ℝ) (h0 : 0 ≤ atol)
    (h1 : 0 ≤ rtol) : allclose v v rtol atol := by
  intro i
  simp only [sub_self, abs_zero]
  positivity

/-- The squared-sine addition identity behind the unit norm of SLERP:
`sin²x + 2 sin x sin y cos (x + y) + sin²y = sin² (x + y)`. -/
theorem sin_sq_add_identity (x y : ℝ) :
    Real.sin x ^ 2 + 2 * Real.sin x * Real.sin y * Real.cos (x + y)
      + Real.sin y ^ 2 = Real.sin (x + y) ^ 2 := by
  rw [Real.sin_add, Real.cos_add]
  have hx := Real.sin_sq_add_cos_sq x
  have hy := Real.sin_sq_add_cos_sq y
  linear_combination (- Real.sin x ^ 2) * hy + (- Real.sin y ^ 2) * hx

/-- Clipping is the identity strictly inside the clip interval. -/
theorem clip_eq_self (x : ℝ) (h1 : -1 < x) (h2 : x < 1) :
    clip x (-1) 1 = x := by
  unfold clip
  rw [max_eq_left h1.le, min_eq_left h2.le]

/-! ### Claim theorems -/

/-- Claim C8: for every manifold, `path_length` of an empty sequence and of
a single-element sequence both equal zero, and for every sequence of at
least two points it equals the sum of `manifold.length` over the
consecutive pairs; in particular
`path_length [A, B, C] = length A B + length B C`. -/
theorem C8_path_length_consecutive_pairs {n : ℕ} (space : Manifold n)
    (p a b c : Pt n) (pts : List (Pt n)) (_hlen : 2 ≤ pts.length) :
    path_length ([] : List (Pt n)) space = 0
    ∧ path_length [p] space = 0
    ∧ path_length [a, b, c] space = space.length a b + space.length b c
    ∧ path_length pts space = consecSum space pts := by
  refine ⟨?_, ?_, ?_, path_length_eq_consecSum space pts⟩
  · rw [path_length_eq_consecSum]; rfl
  · rw [path_length_eq_consecSum]; rfl
  · rw [path_length_eq_consecSum]; simp [consecSum]

/-- Witness for C8 at a concrete two-point list on the Euclidean line. -/
theorem C8_path_length_consecutive_pairs_witness :
    2 ≤ ([pt0, pt1] : List (Pt 1)).length
    ∧ (path_length ([] : List (Pt 1)) euclid1 = 0
       ∧ path_length [pt0] euclid1 = 0
       ∧ path_length [pt0, pt1, pt2] euclid1
           = euclid1.length pt0 pt1 + euclid1.length pt1 pt2
       ∧ path_length [pt0, pt1] euclid1 = consecSum euclid1 [pt0, pt1]) :=
  ⟨by norm_num,
   C8_path_length_consecutive_pairs euclid1 pt0 pt0 pt1 pt2 [pt0, pt1]
     (by norm_num)⟩

/-- Claim C3: a fraction outside `[0, 1]` makes both `point_along` and
`slerp` fail immediately with a fatal error and no partial result (for any
optimizer and manifold), while a fraction inside `[0, 1]` never triggers
that error in either function. -/
theorem C3_invalid_fraction_fatal {n : ℕ} (minimizeF : MinimizeFn n)
    (pt_a pt_b : Pt n) (space : Manifold n) (guess : Option (Pt n))
    (opts : Opts) (frac : ℝ) :
    ((frac < 0 ∨ frac > 1) →
      point_along minimizeF pt_a pt_b space frac guess opts
          = .error (GErr.invalidFrac frac)
        ∧ slerp pt_a pt_b frac = .error (GErr.slerpFracAssert frac))
    ∧ (0 ≤ frac → frac ≤ 1 →
      (∃ p st, point_along minimizeF pt_a pt_b space frac guess opts
          = .ok (p, st))
        ∧ ∃ v, slerp pt_a pt_b frac = .ok v) := by
  constructor
  · intro h
    refine ⟨point_along_err minimizeF pt_a pt_b space frac guess opts h, ?_⟩
    have hc : ¬ (0 ≤ frac ∧ frac ≤ 1) := by
      rcases h with h | h <;> (rintro ⟨h1, h2⟩; linarith)
    rw [slerp, if_pos hc]
  · intro h0 h1
    refine ⟨point_along_isOk minimizeF pt_a pt_b space frac guess opts h0 h1,
      ?_⟩
    rw [slerp, if_neg (not_not_intro ⟨h0, h1⟩)]
    dsimp only
    split_ifs
    · exact ⟨_, rfl⟩
    · exact ⟨_, rfl⟩
    · exact ⟨_, rfl⟩
    · exact ⟨_, rfl⟩

/-- Witness for C3, applying the theorem at `frac = 3/2` (out of range) and
at `frac = 1/2` (in range). -/
theorem C3_invalid_fraction_fatal_witness :
    ((3 / 2 : ℝ) < 0 ∨ (3 / 2 : ℝ) > 1)
    ∧ (point_along minConv pt0 pt2 euclid1 (3 / 2) none {}
          = .error (GErr.invalidFrac (3 / 2))
        ∧ slerp pt0 pt2 (3 / 2) = .error (GErr.slerpFracAssert (3 / 2)))
    ∧ (0 : ℝ) ≤ 1 / 2 ∧ (1 / 2 : ℝ) ≤ 1
    ∧ ((∃ p st, point_along minConv pt0 pt2 euclid1 (1 / 2) none {}
          = .ok (p, st))
        ∧ ∃ v, slerp pt0 pt2 (1 / 2) = .ok v) :=
  ⟨Or.inr (by norm_num),
   (C3_invalid_fraction_fatal minConv pt0 pt2 euclid1 none {} (3 / 2)).1
     (Or.inr (by norm_num)),
   by norm_num, by norm_num,
   (C3_invalid_fraction_fatal minConv pt0 pt2 euclid1 none {} (1 / 2)).2
     (by norm_num) (by norm_num)⟩

/-- Claim C4: for any optimizer and manifold and `A ≠ B`, `point_along` at
fraction `0` returns `A` and at fraction `1` returns `B`, both with status
`CONVERGED`; the result does not depend on the optimizer (the statement
holds for every `minimizeF`), i.e. the optimizer is not invoked. -/
theorem C4_endpoint_fast_paths {n : ℕ} (minimizeF : MinimizeFn n)
    (pt_a pt_b : Pt n) (space : Manifold n) (guess : Option (Pt n))
    (opts : Opts) (_hne : pt_a ≠ pt_b) :
    point_along minimizeF pt_a pt_b space 0 guess opts
        = .ok (pt_a, OptimResult.CONVERGED)
    ∧ point_along minimizeF pt_a pt_b space 1 guess opts
        = .ok (pt_b, OptimResult.CONVERGED) :=
  ⟨point_along_zero minimizeF pt_a pt_b space guess opts,
   point_along_one minimizeF pt_a pt_b space guess opts⟩

/-- Witness for C4 at the concrete points `[0]` and `[2]`. -/
theorem C4_endpoint_fast_paths_witness :
    pt0 ≠ pt2
    ∧ (point_along minConv pt0 pt2 euclid1 0 none {}
        = .ok (pt0, OptimResult.CONVERGED)
      ∧ point_along minConv pt0 pt2 euclid1 1 none {}
        = .ok (pt2, OptimResult.CONVERGED)) :=
  have hne : pt0 ≠ pt2 := by
    intro h
    have h0 := congrFun h 0
    simp only [pt0, pt2, Matrix.cons_val_zero] at h0
    norm_num at h0
  ⟨hne, C4_endpoint_fast_paths minConv pt0 pt2 euclid1 none {} hne⟩

/-- Claim C10: the endpoint fast paths of `point_along` return the supplied
endpoint unprojected and take precedence over the coincidence fast path
(the hypothesis asserts the two points do coincide within tolerance), and
only the coincidence fast path — taken at an interior fraction — projects
its result. -/
theorem C10_fast_path_precedence {n : ℕ} (minimizeF : MinimizeFn n)
    (pt_a pt_b : Pt n) (space : Manifold n) (guess : Option (Pt n))
    (opts : Opts) (frac : ℝ)
    (hcoin : allclose pt_a pt_b 1e-5 opts.pt_tol) :
    point_along minimizeF pt_a pt_b space 0 guess opts
        = .ok (pt_a, OptimResult.CONVERGED)
    ∧ point_along minimizeF pt_a pt_b space 1 guess opts
        = .ok (pt_b, OptimResult.CONVERGED)
    ∧ (0 ≤ frac → frac ≤ 1 → frac ≠ 0 → frac ≠ 1 →
        point_along minimizeF pt_a pt_b space frac guess opts
          = .ok (space.project ((pt_a + pt_b) / 2), OptimResult.CONVERGED)) :=
  ⟨point_along_zero minimizeF pt_a pt_b space guess opts,
   point_along_one minimizeF pt_a pt_b space guess opts,
   fun h0 h1 hf0 hf1 =>
     point_along_coin minimizeF pt_a pt_b space frac guess opts
       h0 h1 hf0 hf1 hcoin⟩

/-- Witness for C10 with two coinciding points. -/
theorem C10_fast_path_precedence_witness :
    allclose pt0 pt0 1e-5 (Opts.pt_tol {})
    ∧ (point_along minConv pt0 pt0 euclid1 0 none {}
         = .ok (pt0, OptimResult.CONVERGED)
      ∧ point_along minConv pt0 pt0 euclid1 1 none {}
         = .ok (pt0, OptimResult.CONVERGED)
      ∧ ((0 : ℝ) ≤ 1 / 2 → (1 / 2 : ℝ) ≤ 1 → (1 / 2 : ℝ) ≠ 0 →
          (1 / 2 : ℝ) ≠ 1 →
          point_along minConv pt0 pt0 euclid1 (1 / 2) none {}
            = .ok (euclid1.project ((pt0 + pt0) / 2),
                   OptimResult.CONVERGED))) :=
  have hcoin : allclose pt0 pt0 1e-5 (Opts.pt_tol {}) := by
    intro i
    simp only [sub_self, abs_zero]
    positivity
  ⟨hcoin, C10_fast_path_precedence minConv pt0 pt0 euclid1 none {} (1 / 2)
    hcoin⟩

/-- Claim C2: on the general path of `point_along`, the objective handed to
the optimizer is, at every candidate `C`, exactly
`max 0 (length A C + length C B - length A B)
  + |length A C - frac * length A B|`. -/
theorem C2_objective_value {n : ℕ} (minimizeF : MinimizeFn n)
    (pt_a pt_b : Pt n) (space : Manifold n) (frac : ℝ)
    (guess : Option (Pt n)) (opts : Opts)
    (h0 : 0 ≤ frac) (h1 : frac ≤ 1) (hf0 : frac ≠ 0) (hf1 : frac ≠ 1)
    (hnc : ¬ allclose pt_a pt_b 1e-5 opts.pt_tol) :
    ∃ p0, point_along minimizeF pt_a pt_b space frac guess opts
      = .ok (minimizeF
          (fun pt_c =>
            max 0 (space.length pt_a pt_c + space.length pt_c pt_b
                    - space.length pt_a pt_b)
              + |space.length pt_a pt_c - frac * space.length pt_a pt_b|)
          p0 space opts) := by
  have hobj : calc_error space pt_a pt_b frac (space.length pt_a pt_b)
      = fun pt_c =>
          max 0 (space.length pt_a pt_c + space.length pt_c pt_b
                  - space.length pt_a pt_b)
            + |space.length pt_a pt_c - frac * space.length pt_a pt_b| := by
    funext pt_c
    simp only [calc_error]
    rw [max_comm]
  refine ⟨(match guess with
           | some g => space.project g
           | none => space.project ((1 - frac) • pt_a + frac • pt_b)), ?_⟩
  rw [point_along_general minimizeF pt_a pt_b space frac guess opts
       h0 h1 hf0 hf1 hnc, hobj]

/-- Witness for C2 at concrete points on the Euclidean line. -/
theorem C2_objective_value_witness :
    (0 : ℝ) ≤ 1 / 2 ∧ (1 / 2 : ℝ) ≤ 1 ∧ (1 / 2 : ℝ) ≠ 0 ∧ (1 / 2 : ℝ) ≠ 1
    ∧ ¬ allclose pt0 pt2 1e-5 (Opts.pt_tol {})
    ∧ ∃ p0, point_along minConv pt0 pt2 euclid1 (1 / 2) none {}
      = .ok (minConv
          (fun pt_c =>
            max 0 (euclid1.length pt0 pt_c + euclid1.length pt_c pt2
                    - euclid1.length pt0 pt2)
              + |euclid1.length pt0 pt_c - 1 / 2 * euclid1.length pt0 pt2|)
          p0 euclid1 {}) :=
  have hnc : ¬ allclose pt0 pt2 1e-5 (Opts.pt_tol {}) := by
    intro h
    have h0 := h 0
    simp only [pt0, pt2, Matrix.cons_val_zero] at h0
    norm_num at h0
  ⟨by norm_num, by norm_num, by norm_num, by norm_num, hnc,
   C2_objective_value minConv pt0 pt2 euclid1 (1 / 2) none {}
     (by norm_num) (by norm_num) (by norm_num) (by norm_num) hnc⟩

/-- Claim C1 (amended): when the optimizer always reports convergence and
`octaves = k ≥ 1`, `subdivide_geodesic` returns `2 ^ k + 1` points whose
first element is `A` and whose last element is `B`.  (As stated for every
integer `k`, the claim fails at `k = 0`, see the counterexample: the base
case always yields three points.) -/
theorem C1_subdivide_point_count {n : ℕ} (minimizeF : MinimizeFn n)
    (space : Manifold n)
    (hconv : ∀ obj g opts,
      (minimizeF obj g space opts).2 = OptimResult.CONVERGED)
    (pt_a pt_b : Pt n) (k : ℤ) (hk : 1 ≤ k) (opts : Opts) :
    ∃ pts warns,
      subdivide_geodesic minimizeF pt_a pt_b space k opts = .ok (pts, warns)
      ∧ pts.length = 2 ^ k.toNat + 1
      ∧ pts.head? = some pt_a
      ∧ pts.getLast? = some pt_b := by
  obtain ⟨core, warns, heq, hlen⟩ :=
    subdivide_conv_struct minimizeF space hconv k hk pt_a pt_b opts
  refine ⟨_, warns, heq, ?_, rfl, ?_⟩
  · have hxx : (pt_a :: (core ++ [pt_b])).length = core.length + 2 := by
      simp only [List.length_cons, List.length_append, List.length_nil]
    rw [hxx]
    exact hlen
  · rw [show pt_a :: (core ++ [pt_b]) = (pt_a :: core) ++ [pt_b] from rfl]
    exact List.getLast?_concat _

/-- Counterexample to C1 as frozen: at `octaves = 0` with a fully
converging optimizer, the result has three points, not `2 ^ 0 + 1 = 2`. -/
theorem C1_subdivide_point_count_cex :
    (∀ (obj : Pt 1 → ℝ) (g : Pt 1) (opts : Opts),
        (minConv obj g euclid1 opts).2 = OptimResult.CONVERGED)
    ∧ ∃ pts warns,
        subdivide_geodesic minConv pt0 pt2 euclid1 0 {} = .ok (pts, warns)
        ∧ pts.length = 3
        ∧ pts.length ≠ 2 ^ (0 : ℤ).toNat + 1 := by
  refine ⟨fun _ _ _ => rfl, [pt0, pt1, pt2], [], ?_, rfl, by norm_num⟩
  rw [subdivide_geodesic_unfold, midpoint_minConv_02 {} (by norm_num)]
  dsimp only
  rw [if_neg (fun hc => absurd hc.1 (by norm_num)),
      if_neg (not_not_intro rfl)]

/-- Witness for the amended C1 at `k = 1` on the Euclidean line. -/
theorem C1_subdivide_point_count_witness :
    (∀ (obj : Pt 1 → ℝ) (g : Pt 1) (opts : Opts),
        (minConv obj g euclid1 opts).2 = OptimResult.CONVERGED)
    ∧ (1 : ℤ) ≤ 1
    ∧ ∃ pts warns,
        subdivide_geodesic minConv pt0 pt2 euclid1 1 {} = .ok (pts, warns)
        ∧ pts.length = 2 ^ (1 : ℤ).toNat + 1
        ∧ pts.head? = some pt0
        ∧ pts.getLast? = some pt2 :=
  ⟨fun _ _ _ => rfl, le_refl 1,
   C1_subdivide_point_count minConv euclid1 (fun _ _ _ => rfl) pt0 pt2 1
     (le_refl 1) {}⟩

/-- Claim C5: whenever the midpoint call reports a status other than
`CONVERGED`, `subdivide_geodesic` does not raise: it returns
`[pt_a, midpt, pt_b]` together with the single non-fatal warning about the
remaining octaves, regardless of how many octaves remain. -/
theorem C5_nonconvergence_short_circuits {n : ℕ} (minimizeF : MinimizeFn n)
    (pt_a pt_b : Pt n) (space : Manifold n) (octaves : ℤ) (opts : Opts)
    (m : Pt n) (st : OptimResult)
    (hmid : midpoint minimizeF pt_a pt_b space opts = .ok (m, st))
    (hst : st ≠ OptimResult.CONVERGED) :
    subdivide_geodesic minimizeF pt_a pt_b space octaves opts
      = .ok ([pt_a, m, pt_b], [GWarning.midpointNotConverged octaves]) := by
  rw [subdivide_geodesic_unfold, hmid]
  dsimp only
  rw [if_neg (fun hc => hst hc.2), if_pos hst]

/-- Witness for C5: a never-converging optimizer at `octaves = 5`. -/
theorem C5_nonconvergence_short_circuits_witness :
    midpoint minFail pt0 pt2 euclid1 {}
        = .ok (pt1, OptimResult.MAX_STEPS_REACHED)
    ∧ OptimResult.MAX_STEPS_REACHED ≠ OptimResult.CONVERGED
    ∧ subdivide_geodesic minFail pt0 pt2 euclid1 5 {}
        = .ok ([pt0, pt1, pt2], [GWarning.midpointNotConverged 5]) :=
  have hmid : midpoint minFail pt0 pt2 euclid1 {}
      = .ok (pt1, OptimResult.MAX_STEPS_REACHED) := by
    simp only [pt0, pt1, pt2]
    exact midpoint_minFail_1d 0 2 1 {}
      (not_allclose_1d_of_lt 0 2 _ (by norm_num) (by norm_num) (by norm_num))
      (by norm_num)
  ⟨hmid, by decide,
   C5_nonconvergence_short_circuits minFail pt0 pt2 euclid1 5 {} pt1
     OptimResult.MAX_STEPS_REACHED hmid (by decide)⟩

/-- Claim C9: the caller-supplied options influence `subdivide_geodesic`
only through the top-level midpoint call — two option records whose
top-level midpoints agree give identical results — and when the top-level
midpoint converged and `octaves > 1`, the two recursive calls are made with
the default options `{}` (so `pt_tol` reverts to `1e-6` below the top
level). -/
theorem C9_opts_only_top_level {n : ℕ} (minimizeF : MinimizeFn n)
    (pt_a pt_b : Pt n) (space : Manifold n) (k : ℤ) (o₁ o₂ : Opts)
    (hmid : midpoint minimizeF pt_a pt_b space o₁
      = midpoint minimizeF pt_a pt_b space o₂) :
    subdivide_geodesic minimizeF pt_a pt_b space k o₁
      = subdivide_geodesic minimizeF pt_a pt_b space k o₂
    ∧ (∀ m st l r, midpoint minimizeF pt_a pt_b space o₁ = .ok (m, st) →
        st = OptimResult.CONVERGED → 1 < k →
        subdivide_geodesic minimizeF pt_a m space (k - 1) {} = .ok l →
        subdivide_geodesic minimizeF m pt_b space (k - 1) {} = .ok r →
        subdivide_geodesic minimizeF pt_a pt_b space k o₁
          = .ok (l.1 ++ r.1.tail, l.2 ++ r.2)) := by
  constructor
  · rw [subdivide_geodesic_unfold, hmid, ← subdivide_geodesic_unfold]
  · intro m st l r hm hst hk hl hr
    subst hst
    rw [subdivide_geodesic_unfold, hm]
    dsimp only
    rw [if_pos ⟨hk, rfl⟩, if_neg (not_not_intro rfl), hl, hr]
    dsimp only
    simp only [List.nil_append]

/-- Witness for C9: `pt_tol = 1e-6` (default) versus `pt_tol = 1e-3` at
`octaves = 2`; both top-level midpoints evaluate to the same result. -/
theorem C9_opts_only_top_level_witness :
    midpoint minConv pt0 pt2 euclid1 {}
        = midpoint minConv pt0 pt2 euclid1 ⟨1e-3⟩
    ∧ subdivide_geodesic minConv pt0 pt2 euclid1 2 {}
        = subdivide_geodesic minConv pt0 pt2 euclid1 2 ⟨1e-3⟩
    ∧ midpoint minConv pt0 pt2 euclid1 {} = .ok (pt1, OptimResult.CONVERGED)
    ∧ subdivide_geodesic minConv pt0 pt1 euclid1 (2 - 1) {}
        = .ok ([pt0, ![1 / 2], pt1], [])
    ∧ subdivide_geodesic minConv pt1 pt2 euclid1 (2 - 1) {}
        = .ok ([pt1, ![3 / 2], pt2], [])
    ∧ subdivide_geodesic minConv pt0 pt2 euclid1 2 {}
        = .ok ([pt0, ![1 / 2], pt1] ++ ([pt1, ![3 / 2], pt2]).tail,
               ([] : List GWarning) ++ ([] : List GWarning)) :=
  have hmid0 : midpoint minConv pt0 pt2 euclid1 {}
      = .ok (pt1, OptimResult.CONVERGED) :=
    midpoint_minConv_02 {} (by norm_num)
  have hmid : midpoint minConv pt0 pt2 euclid1 {}
      = midpoint minConv pt0 pt2 euclid1 ⟨1e-3⟩ := by
    rw [hmid0, midpoint_minConv_02 ⟨1e-3⟩ (by norm_num)]
  have hl : subdivide_geodesic minConv pt0 pt1 euclid1 (2 - 1) {}
      = .ok ([pt0, ![1 / 2], pt1], []) := by
    show subdivide_geodesic minConv pt0 pt1 euclid1 1 {} = _
    simp only [pt0, pt1]
    exact subdivide1_minConv_1d 0 1 (1 / 2)
      (not_allclose_1d_of_lt 0 1 _ (by norm_num) (by norm_num) (by norm_num))
      (by norm_num)
  have hr : subdivide_geodesic minConv pt1 pt2 euclid1 (2 - 1) {}
      = .ok ([pt1, ![3 / 2], pt2], []) := by
    show subdivide_geodesic minConv pt1 pt2 euclid1 1 {} = _
    simp only [pt1, pt2]
    exact subdivide1_minConv_1d 1 2 (3 / 2)
      (not_allclose_1d_of_lt 1 2 _ (by norm_num) (by norm_num) (by norm_num))
      (by norm_num)
  ⟨hmid,
   (C9_opts_only_top_level minConv pt0 pt2 euclid1 2 {} ⟨1e-3⟩ hmid).1,
   hmid0, hl, hr,
   (C9_opts_only_top_level minConv pt0 pt2 euclid1 2 {} ⟨1e-3⟩ hmid).2
     pt1 OptimResult.CONVERGED ([pt0, ![1 / 2], pt1], [])
     ([pt1, ![3 / 2], pt2], []) hmid0 rfl (by norm_num) hl hr⟩

/-- Claim C7: `angle` displaces from `B` toward `A` and toward `C` with
`point_along` at fraction `0.01`, and returns
`arccos (clip ((dA^2 + dC^2 - dB^2) / (2 * dA * dC)) (-1) 1)` with
`dC = length B ptBA`, `dA = length B ptBC`, `dB = length ptBA ptBC`; the
clip happens before the inverse cosine, so the value lies in `[0, π]`. -/
theorem C7_angle_formula {n : ℕ} (minimizeF : MinimizeFn n)
    (pt_a pt_b pt_c : Pt n) (space : Manifold n) (opts : Opts) :
    ∃ pt_ba st_ba pt_bc st_bc w,
      point_along minimizeF pt_b pt_a space 0.01 none opts
          = .ok (pt_ba, st_ba)
      ∧ point_along minimizeF pt_b pt_c space 0.01 none opts
          = .ok (pt_bc, st_bc)
      ∧ angle minimizeF pt_a pt_b pt_c space opts
          = .ok (Real.arccos (clip
              (((space.length pt_b pt_bc) ^ 2 + (space.length pt_b pt_ba) ^ 2
                  - (space.length pt_ba pt_bc) ^ 2)
                / (2 * space.length pt_b pt_bc * space.length pt_b pt_ba))
              (-1) 1), w)
      ∧ (0 : ℝ) ≤ Real.arccos (clip
              (((space.length pt_b pt_bc) ^ 2 + (space.length pt_b pt_ba) ^ 2
                  - (space.length pt_ba pt_bc) ^ 2)
                / (2 * space.length pt_b pt_bc * space.length pt_b pt_ba))
              (-1) 1)
      ∧ Real.arccos (clip
              (((space.length pt_b pt_bc) ^ 2 + (space.length pt_b pt_ba) ^ 2
                  - (space.length pt_ba pt_bc) ^ 2)
                / (2 * space.length pt_b pt_bc * space.length pt_b pt_ba))
              (-1) 1) ≤ Real.pi := by
  obtain ⟨pt_ba, st_ba, hba⟩ :=
    point_along_isOk minimizeF pt_b pt_a space 0.01 none opts
      (by norm_num) (by norm_num)
  obtain ⟨pt_bc, st_bc, hbc⟩ :=
    point_along_isOk minimizeF pt_b pt_c space 0.01 none opts
      (by norm_num) (by norm_num)
  have harg : ∀ da dc db : ℝ,
      (0.5 : ℝ) * (da * da + dc * dc - db * db) / (da * dc)
        = (da ^ 2 + dc ^ 2 - db ^ 2) / (2 * da * dc) := by
    intro da dc db
    rw [show (0.5 : ℝ) * (da * da + dc * dc - db * db)
          = (da ^ 2 + dc ^ 2 - db ^ 2) / 2 by ring,
        div_div, mul_comm (2 : ℝ) (da * dc),
        show da * dc * 2 = 2 * da * dc by ring]
  refine ⟨pt_ba, st_ba, pt_bc, st_bc,
    (if st_ba ≠ OptimResult.CONVERGED ∨ st_bc ≠ OptimResult.CONVERGED then
      [GWarning.angleNotConverged] else []),
    hba, hbc, ?_, Real.arccos_nonneg _, Real.arccos_le_pi _⟩
  unfold angle
  rw [hba]
  dsimp only
  rw [hbc]
  dsimp only
  rw [harg (space.length pt_b pt_bc) (space.length pt_b pt_ba)
    (space.length pt_ba pt_bc)]

/-- Claim C6 (amended): `slerp A B 0` is `normalize A` and `slerp A B 1` is
`normalize B`; and for unit vectors `A`, `B` that are not numerically
coincident (in the sense of the `torch.allclose` branch of the source, with
`rtol = 1e-5`, `atol = 1e-8`) and not exactly antipodal, and any fraction in
`[0, 1]`, `slerp` returns exactly the spec formula
`A*sin((1-f)*omega)/sin(omega) + B*sin(f*omega)/sin(omega)` with
`omega = arccos(clip(dot A B, -1, 1))`, and that output has unit norm. -/
theorem C6_slerp_unit_norm {n : ℕ} (A B : Pt n)
    (hA : dot A A = 1) (hB : dot B B = 1)
    (hco : ¬ allclose A B 1e-5 1e-8) (hanti : A ≠ -B)
    (f : ℝ) (h0 : 0 ≤ f) (h1 : f ≤ 1) :
    (∀ (P Q : Pt n), slerp P Q 0 = .ok (normalize P))
    ∧ (∀ (P Q : Pt n), slerp P Q 1 = .ok (normalize Q))
    ∧ slerp A B f = .ok (slerp_formula A B f)
    ∧ dot (slerp_formula A B f) (slerp_formula A B f) = 1
    ∧ Real.sqrt (dot (slerp_formula A B f) (slerp_formula A B f)) = 1 := by
  have part1 : ∀ (P Q : Pt n), slerp P Q 0 = .ok (normalize P) := by
    intro P Q
    unfold slerp
    rw [if_neg (not_not_intro (by norm_num))]
    dsimp only
    rw [if_pos rfl]
  have part2 : ∀ (P Q : Pt n), slerp P Q 1 = .ok (normalize Q) := by
    intro P Q
    unfold slerp
    rw [if_neg (not_not_intro (by norm_num))]
    dsimp only
    rw [if_neg one_ne_zero, if_pos rfl]
  have hnormA := normalize_of_unit A hA
  have hnormB := normalize_of_unit B hB
  have hne : A ≠ B := by
    intro h
    subst h
    exact hco (allclose_self A 1e-5 1e-8 (by norm_num) (by norm_num))
  have hlt : dot A B < 1 := dot_lt_one_of_ne A B hA hB hne
  have hgt : -1 < dot A B := neg_one_lt_dot_of_ne_neg A B hA hB hanti
  have hclip : clip (dot A B) (-1) 1 = dot A B := clip_eq_self _ hgt hlt
  have hcos : Real.cos (Real.arccos (dot A B)) = dot A B :=
    Real.cos_arccos hgt.le hlt.le
  have hltpi : Real.arccos (dot A B) < Real.pi :=
    lt_of_le_of_ne (Real.arccos_le_pi _)
      (fun h => absurd (Real.arccos_eq_pi.mp h) (by linarith))
  have hsin : 0 < Real.sin (Real.arccos (dot A B)) :=
    Real.sin_pos_of_pos_of_lt_pi (Real.arccos_pos.mpr hlt) hltpi
  have hform : slerp_formula A B f
      = fun i => A i * (Real.sin ((1 - f) * Real.arccos (dot A B))
          / Real.sin (Real.arccos (dot A B)))
        + B i * (Real.sin (f * Real.arccos (dot A B))
          / Real.sin (Real.arccos (dot A B))) := by
    funext i
    simp only [slerp_formula]
    rw [hclip, mul_div_assoc, mul_div_assoc]
  have habstract : ∀ s1 s2 sw d : ℝ, sw ≠ 0 →
      s1 ^ 2 + 2 * s1 * s2 * d + s2 ^ 2 = sw ^ 2 →
      (s1 / sw) ^ 2 * 1 + 2 * (s1 / sw) * (s2 / sw) * d
        + (s2 / sw) ^ 2 * 1 = 1 := by
    intro s1 s2 sw d hs hk
    field_simp
    linear_combination sw ^ 4 * hk
  have hnorm : dot (slerp_formula A B f) (slerp_formula A B f) = 1 := by
    rw [hform, dot_expand, hA, hB]
    have hxy : (1 - f) * Real.arccos (dot A B) + f * Real.arccos (dot A B)
        = Real.arccos (dot A B) := by ring
    have key := sin_sq_add_identity ((1 - f) * Real.arccos (dot A B))
      (f * Real.arccos (dot A B))
    rw [hxy, hcos] at key
    exact habstract _ _ _ _ hsin.ne' key
  have part3 : slerp A B f = .ok (slerp_formula A B f) := by
    by_cases hf0 : f = 0
    · subst hf0
      rw [part1 A B, hnormA]
      congr 1
      funext i
      simp only [hform]
      rw [sub_zero, one_mul, zero_mul, Real.sin_zero, zero_div, mul_zero,
        add_zero, div_self hsin.ne', mul_one]
    · by_cases hf1 : f = 1
      · subst hf1
        rw [part2 A B, hnormB]
        congr 1
        funext i
        simp only [hform]
        rw [sub_self, zero_mul, Real.sin_zero, zero_div, mul_zero, zero_add,
          one_mul, div_self hsin.ne', mul_one]
      · unfold slerp
        rw [if_neg (not_not_intro ⟨h0, h1⟩)]
        dsimp only
        rw [hnormA, hnormB, if_neg hf0, if_neg hf1, if_neg hco]
        exact congrArg Except.ok (by funext i; simp only [slerp_formula])
  exact ⟨part1, part2, part3, hnorm, by rw [hnorm, Real.sqrt_one]⟩

/-- Witness for the amended C6 at the perpendicular unit vectors `[1, 0]`
and `[0, 1]` with fraction `1/2`. -/
theorem C6_slerp_unit_norm_witness :
    dot qA qA = 1 ∧ dot qB qB = 1
    ∧ ¬ allclose qA qB 1e-5 1e-8 ∧ qA ≠ -qB
    ∧ (0 : ℝ) ≤ 1 / 2 ∧ (1 / 2 : ℝ) ≤ 1
    ∧ ((∀ (P Q : Pt 2), slerp P Q 0 = .ok (normalize P))
      ∧ (∀ (P Q : Pt 2), slerp P Q 1 = .ok (normalize Q))
      ∧ slerp qA qB (1 / 2) = .ok (slerp_formula qA qB (1 / 2))
      ∧ dot (slerp_formula qA qB (1 / 2)) (slerp_formula qA qB (1 / 2)) = 1
      ∧ Real.sqrt (dot (slerp_formula qA qB (1 / 2))
          (slerp_formula qA qB (1 / 2))) = 1) :=
  have hA : dot qA qA = 1 := by
    simp [dot, qA, Fin.sum_univ_two]
  have hB : dot qB qB = 1 := by
    simp [dot, qB, Fin.sum_univ_two]
  have hco : ¬ allclose qA qB 1e-5 1e-8 := by
    intro h
    have h0 := h 0
    simp only [qA, qB, Matrix.cons_val_zero, sub_zero, abs_one,
      abs_zero] at h0
    norm_num at h0
  have hanti : qA ≠ -qB := by
    intro h
    have h0 := congrFun h 0
    simp only [qA, qB, Pi.neg_apply, Matrix.cons_val_zero] at h0
    norm_num at h0
  ⟨hA, hB, hco, hanti, by norm_num, by norm_num,
   C6_slerp_unit_norm qA qB hA hB hco hanti (1 / 2) (by norm_num)
     (by norm_num)⟩

/-- Counterexample to C6 as frozen: `qA = [1, 0]` and `qC` (the rational
point of the unit circle at parameter `1e-9`) are distinct, non-antipodal
unit vectors, but they fall inside the `torch.allclose` tolerances, so
`slerp` at fraction `1/2` returns their unprojected average, whose norm is
not `1` (and which therefore also differs from the claimed closed-form
output). -/
theorem C6_slerp_unit_norm_cex :
    dot qA qA = 1 ∧ dot qC qC = 1 ∧ qA ≠ qC ∧ qA ≠ -qC
    ∧ slerp qA qC (1 / 2) = .ok ((qA + qC) / 2)
    ∧ dot ((qA + qC) / 2) ((qA + qC) / 2) ≠ 1
    ∧ Real.sqrt (dot ((qA + qC) / 2) ((qA + qC) / 2)) ≠ 1 := by
  have hA : dot qA qA = 1 := by
    simp [dot, qA, Fin.sum_univ_two]
  have hC : dot qC qC = 1 := by
    simp only [dot, qC, Fin.sum_univ_two, Matrix.cons_val_zero,
      Matrix.cons_val_one, Matrix.head_cons]
    norm_num
  have hne : qA ≠ qC := by
    intro h
    have h1 := congrFun h 1
    simp only [qA, qC, Matrix.cons_val_one, Matrix.head_cons] at h1
    norm_num at h1
  have hanti : qA ≠ -qC := by
    intro h
    have h0 := congrFun h 0
    simp only [qA, qC, Pi.neg_apply, Matrix.cons_val_zero] at h0
    norm_num at h0
  have hclose : allclose qA qC 1e-5 1e-8 := by
    intro i
    fin_cases i
    · simp only [qA, qC, Fin.zero_eta, Matrix.cons_val_zero]
      rw [abs_of_nonneg (by norm_num :
            (0 : ℝ) ≤ 1 - (1 - 1e-18) / (1 + 1e-18)),
          abs_of_nonneg (by norm_num :
            (0 : ℝ) ≤ (1 - 1e-18) / (1 + 1e-18))]
      norm_num
    · simp only [qA, qC, Fin.mk_one, Matrix.cons_val_one, Matrix.head_cons]
      rw [zero_sub, abs_neg,
          abs_of_nonneg (by norm_num : (0 : ℝ) ≤ 2e-9 / (1 + 1e-18))]
      norm_num
  have hdot : dot ((qA + qC) / 2) ((qA + qC) / 2) ≠ 1 := by
    simp only [dot, Fin.sum_univ_two, Pi.div_apply, Pi.add_apply,
      Pi.ofNat_apply, qA, qC, Matrix.cons_val_zero, Matrix.cons_val_one,
      Matrix.head_cons]
    norm_num
  refine ⟨hA, hC, hne, hanti, ?_, hdot,
    fun h => hdot (Real.sqrt_eq_one.mp h)⟩
  unfold slerp
  rw [if_neg (not_not_intro (by norm_num))]
  dsimp only
  rw [normalize_of_unit qA hA, normalize_of_unit qC hC,
      if_neg (by norm_num : (1 / 2 : ℝ) ≠ 0),
      if_neg (by norm_num : (1 / 2 : ℝ) ≠ 1), if_pos hclose]

end RepSimGeo
